import Mathlib

/-!
Verification development for the size-bounded, recency-ordered cache layers of
this repository: the in-memory weighted LRU map (`LruCache`, `memory_cache`)
and the disk-resident LRU file cache (`LruDiskCache`, `disk_cache.rs`).

The in-memory layer is embedded as a list of `(key, value, weight)` entries in
recency order (head = most recent).  The disk layer is embedded as that LRU map
paired with a model of the filesystem: a finite map from paths to file
contents, together with oracles saying which filesystem calls succeed.
Machine integers (`u64`, `usize`) are modelled as `Nat`; none of the verified
properties depends on wrap-around.
-/

namespace DatabendCache

/-- A filesystem path, as its list of components (`OsString` keys of the disk
cache are relative paths interpreted verbatim; joining is list append). -/
abbrev Path := List String

/-- File contents as a list of bytes. -/
abbrev Bytes := List Nat

/-- Remove every pair whose first component equals `a` (assoc-list erase). -/
def eraseKey {α β : Type} [DecidableEq α] (l : List (α × β)) (a : α) : List (α × β) :=
  l.filter fun e => !decide (e.1 = a)

/-- Find the first pair whose first component equals `a`. -/
def findKey {α β : Type} [DecidableEq α] (l : List (α × β)) (a : α) : Option (α × β) :=
  l.find? fun e => decide (e.1 = a)

theorem findKey_eraseKey {α β : Type} [DecidableEq α] (l : List (α × β)) (a : α) :
    findKey (eraseKey l a) a = none := by
  apply List.find?_eq_none.mpr
  intro x hx
  have hmem := List.mem_filter.mp hx
  simpa using hmem.2

theorem eraseKey_of_findKey_none {α β : Type} [DecidableEq α] {l : List (α × β)} {a : α}
    (h : findKey l a = none) : eraseKey l a = l := by
  apply List.filter_eq_self.mpr
  intro x hx
  have := List.find?_eq_none.mp h x hx
  simpa using this

theorem findKey_key {α β : Type} [DecidableEq α] {l : List (α × β)} {a : α} {e : α × β}
    (h : findKey l a = some e) : e.1 = a := by
  have := List.find?_some h
  simpa using this

theorem findKey_mem {α β : Type} [DecidableEq α] {l : List (α × β)} {a : α} {e : α × β}
    (h : findKey l a = some e) : e ∈ l :=
  List.mem_of_find?_eq_some h

/-- Modelled from the spec: the in-memory weighted LRU mapping (`MemLRU`,
`LruCache` in the source tree; its implementation file `memory_cache.rs` is
not part of the provided sources, only its tests and callers are).
`entries` holds `(key, value, weight)` triples in recency order, head = most
recent, tail = least recent; `capacity` bounds the sum of the weights. -/
structure LruCache (K V : Type) where
  entries : List (K × V × Nat)
  capacity : Nat

/-- Total weight of a list of entries. -/
def sumWeights {K V : Type} (l : List (K × V × Nat)) : Nat :=
  (l.map fun e => e.2.2).sum

/-- Modelled from the spec: eviction loop, fuel-indexed rendering of
"evict from the tail while total_weight > capacity".  Called with fuel equal
to the length of the list, which bounds the number of iterations: each
iteration drops the tail entry, and on the empty list the guard is false. -/
def evictFuel {K V : Type} : Nat → Nat → List (K × V × Nat) → List (K × V × Nat)
  | 0, _, l => l
  | n + 1, cap, l => if cap < sumWeights l then evictFuel n cap l.dropLast else l

/-- Run the eviction loop to completion. -/
def evictAll {K V : Type} (cap : Nat) (l : List (K × V × Nat)) : List (K × V × Nat) :=
  evictFuel l.length cap l

namespace LruCache

variable {K V : Type} [DecidableEq K]

/-- Total weight currently stored (the source's `size()`). -/
def size (c : LruCache K V) : Nat := sumWeights c.entries

/-- Number of entries (the source's `len()`). -/
def len (c : LruCache K V) : Nat := c.entries.length

/-- The entry for `k`, if present. -/
def lookupEntry (c : LruCache K V) (k : K) : Option (K × V × Nat) :=
  findKey c.entries k

/-- Modelled from the spec: `peek` reads without promotion. -/
def peek (c : LruCache K V) (k : K) : Option V :=
  (c.lookupEntry k).map fun e => e.2.1

/-- Modelled from the spec: `contains_key`, no promotion. -/
def contains (c : LruCache K V) (k : K) : Bool :=
  (c.lookupEntry k).isSome

/-- Modelled from the spec: `insert`.  Measure the weight, replace any
existing entry for the key and move it to the head, then evict from the tail
while the total weight exceeds the capacity.  Returns the previous value. -/
def insert (m : K → V → Nat) (c : LruCache K V) (k : K) (v : V) :
    Option V × LruCache K V :=
  let w := m k v
  let l := (k, v, w) :: eraseKey c.entries k
  (c.peek k, { c with entries := evictAll c.capacity l })

/-- Modelled from the spec: `get` promotes the entry to the head on a hit and
returns its value; it is a no-op on a miss. -/
def get (c : LruCache K V) (k : K) : Option V × LruCache K V :=
  match c.lookupEntry k with
  | none => (none, c)
  | some e => (some e.2.1, { c with entries := e :: eraseKey c.entries k })

/-- Modelled from the spec: `get_mut` promotes exactly like `get`. -/
def getMut (c : LruCache K V) (k : K) : Option V × LruCache K V :=
  c.get k

/-- Modelled from the spec: `remove` drops the entry and returns its value. -/
def remove (c : LruCache K V) (k : K) : Option V × LruCache K V :=
  ((c.lookupEntry k).map fun e => e.2.1, { c with entries := eraseKey c.entries k })

/-- Modelled from the spec: `remove_lru` removes and returns the tail entry. -/
def removeLru (c : LruCache K V) : Option (K × V) × LruCache K V :=
  match c.entries.getLast? with
  | none => (none, c)
  | some e => (some (e.1, e.2.1), { c with entries := c.entries.dropLast })

/-- Modelled from the spec: `clear` removes all entries. -/
def clear (c : LruCache K V) : LruCache K V :=
  { c with entries := [] }

/-- Modelled from the spec: `set_capacity` updates the bound and immediately
evicts from the tail until the invariant holds. -/
def setCapacity (c : LruCache K V) (cap : Nat) : LruCache K V :=
  { entries := evictAll cap c.entries, capacity := cap }

end LruCache

/-- One public MemLRU operation, for stating properties over op sequences. -/
inductive MOp (K V : Type) where
  | insertOp : K → V → MOp K V
  | getOp : K → MOp K V
  | getMutOp : K → MOp K V
  | peekOp : K → MOp K V
  | removeOp : K → MOp K V
  | removeLruOp : MOp K V
  | clearOp : MOp K V
  | setCapacityOp : Nat → MOp K V

/-- State reached after one MemLRU operation (the value results of lookups are
discarded; only the cache state matters for the invariants). -/
def applyOp {K V : Type} [DecidableEq K] (m : K → V → Nat) (c : LruCache K V) :
    MOp K V → LruCache K V
  | .insertOp k v => (c.insert m k v).2
  | .getOp k => (c.get k).2
  | .getMutOp k => (c.getMut k).2
  | .peekOp _ => c
  | .removeOp k => (c.remove k).2
  | .removeLruOp => c.removeLru.2
  | .clearOp => c.clear
  | .setCapacityOp n => c.setCapacity n

/-- State reached after a sequence of MemLRU operations. -/
def applyOps {K V : Type} [DecidableEq K] (m : K → V → Nat) (c : LruCache K V)
    (ops : List (MOp K V)) : LruCache K V :=
  ops.foldl (applyOp m) c

theorem sumWeights_nil {K V : Type} : sumWeights ([] : List (K × V × Nat)) = 0 := rfl

theorem sumWeights_cons {K V : Type} (e : K × V × Nat) (l : List (K × V × Nat)) :
    sumWeights (e :: l) = e.2.2 + sumWeights l := by
  simp [sumWeights]

theorem sumWeights_filter_le {K V : Type} (p : K × V × Nat → Bool) (l : List (K × V × Nat)) :
    sumWeights (l.filter p) ≤ sumWeights l := by
  induction l with
  | nil => simp [sumWeights]
  | cons a t ih =>
    by_cases hp : p a
    · rw [List.filter_cons_of_pos hp, sumWeights_cons, sumWeights_cons]
      omega
    · rw [List.filter_cons_of_neg hp, sumWeights_cons]
      omega

theorem sumWeights_dropLast_le {K V : Type} (l : List (K × V × Nat)) :
    sumWeights l.dropLast ≤ sumWeights l := by
  induction l with
  | nil => simp [sumWeights]
  | cons a t ih =>
    cases t with
    | nil => simp [sumWeights, List.dropLast]
    | cons b u =>
      have hd : (a :: b :: u).dropLast = a :: (b :: u).dropLast := rfl
      rw [hd, sumWeights_cons, sumWeights_cons]
      omega

theorem evictFuel_le {K V : Type} (cap : Nat) :
    ∀ (n : Nat) (l : List (K × V × Nat)), l.length ≤ n →
      sumWeights (evictFuel n cap l) ≤ cap := by
  intro n
  induction n with
  | zero =>
    intro l hl
    have : l = [] := List.eq_nil_of_length_eq_zero (Nat.le_zero.mp hl)
    subst this
    simp [evictFuel, sumWeights]
  | succ m ih =>
    intro l hl
    rw [evictFuel]
    by_cases hg : cap < sumWeights l
    · rw [if_pos hg]
      apply ih
      have := List.length_dropLast l
      have hne : l ≠ [] := by
        intro hnil
        subst hnil
        simp [sumWeights] at hg
      have hpos : 0 < l.length := List.length_pos.mpr hne
      omega
    · rw [if_neg hg]
      omega

theorem evictAll_le {K V : Type} (cap : Nat) (l : List (K × V × Nat)) :
    sumWeights (evictAll cap l) ≤ cap :=
  evictFuel_le cap l.length l (Nat.le_refl _)

theorem evictFuel_nil {K V : Type} (n cap : Nat) :
    evictFuel n cap ([] : List (K × V × Nat)) = [] := by
  cases n with
  | zero => rfl
  | succ m =>
    rw [evictFuel]
    have : ¬ cap < sumWeights ([] : List (K × V × Nat)) := by simp [sumWeights]
    rw [if_neg this]

/-- If the head entry alone outweighs the capacity, the eviction loop drains
the whole list: the guard stays true as long as the head is present, and the
head is only removed when it is the final remaining entry. -/
theorem evictFuel_head_big {K V : Type} {cap w : Nat} (hw : cap < w) :
    ∀ (n : Nat) (k : K) (v : V) (t : List (K × V × Nat)), t.length < n →
      evictFuel n cap ((k, v, w) :: t) = [] := by
  intro n
  induction n with
  | zero => intro k v t ht; omega
  | succ m ih =>
    intro k v t ht
    rw [evictFuel]
    have hg : cap < sumWeights ((k, v, w) :: t) := by
      rw [sumWeights_cons]
      simp only []
      omega
    rw [if_pos hg]
    cases t with
    | nil => exact evictFuel_nil m cap
    | cons b u =>
      have hd : ((k, v, w) :: b :: u).dropLast = (k, v, w) :: (b :: u).dropLast := rfl
      rw [hd]
      apply ih
      have hlen : ((b :: u).dropLast).length = (b :: u).length - 1 :=
        List.length_dropLast (b :: u)
      rw [hlen]
      simp only [List.length_cons] at ht ⊢
      omega

/-- Promotion of a found entry does not increase the total weight. -/
theorem sumWeights_promote_le {K V : Type} [DecidableEq K]
    {l : List (K × V × Nat)} {k : K} {e : K × V × Nat}
    (h : findKey l k = some e) :
    sumWeights (e :: eraseKey l k) ≤ sumWeights l := by
  induction l with
  | nil => simp [findKey] at h
  | cons a t ih =>
    by_cases hpa : a.1 = k
    · have hfind : findKey (a :: t) k = some a := by
        simp [findKey, List.find?_cons_of_pos, hpa]
      rw [hfind] at h
      injection h with he
      subst he
      have herase : eraseKey (a :: t) k = eraseKey t k := by
        simp [eraseKey, List.filter_cons, hpa]
      rw [herase, sumWeights_cons, sumWeights_cons]
      have := sumWeights_filter_le (fun e => !decide (e.1 = k)) t
      simp only [eraseKey]
      omega
    · have hfind : findKey (a :: t) k = findKey t k := by
        simp [findKey, List.find?_cons_of_neg, hpa]
      rw [hfind] at h
      have herase : eraseKey (a :: t) k = a :: eraseKey t k := by
        simp [eraseKey, List.filter_cons, hpa]
      rw [herase]
      have hih := ih h
      rw [sumWeights_cons] at hih ⊢
      rw [sumWeights_cons, sumWeights_cons]
      omega

/-- With pairwise-distinct keys, promoting a found entry permutes the list. -/
theorem promote_perm {K V : Type} [DecidableEq K]
    {l : List (K × V × Nat)} {k : K} {e : K × V × Nat}
    (hnd : (l.map fun x => x.1).Nodup) (h : findKey l k = some e) :
    List.Perm (e :: eraseKey l k) l := by
  induction l with
  | nil => simp [findKey] at h
  | cons a t ih =>
    simp only [List.map_cons, List.nodup_cons] at hnd
    by_cases hpa : a.1 = k
    · have hfind : findKey (a :: t) k = some a := by
        simp [findKey, List.find?_cons_of_pos, hpa]
      rw [hfind] at h
      injection h with he
      subst he
      have herase : eraseKey (a :: t) k = eraseKey t k := by
        simp [eraseKey, List.filter_cons, hpa]
      have ht : eraseKey t k = t := by
        apply List.filter_eq_self.mpr
        intro x hx
        have hxk : ¬ x.1 = k := by
          intro hxk
          apply hnd.1
          rw [hpa, ← hxk]
          exact List.mem_map.mpr ⟨x, hx, rfl⟩
        simp [hxk]
      rw [herase, ht]
    · have hfind : findKey (a :: t) k = findKey t k := by
        simp [findKey, List.find?_cons_of_neg, hpa]
      rw [hfind] at h
      have herase : eraseKey (a :: t) k = a :: eraseKey t k := by
        simp [eraseKey, List.filter_cons, hpa]
      rw [herase]
      exact List.Perm.trans (List.Perm.swap a e (eraseKey t k))
        (List.Perm.cons a (ih hnd.2 h))

/-- Every single MemLRU operation keeps the total weight within capacity. -/
theorem applyOp_weight_le {K V : Type} [DecidableEq K] (m : K → V → Nat)
    (c : LruCache K V) (op : MOp K V)
    (h : sumWeights c.entries ≤ c.capacity) :
    sumWeights (applyOp m c op).entries ≤ (applyOp m c op).capacity := by
  cases op with
  | insertOp k v =>
    simp only [applyOp, LruCache.insert]
    exact evictAll_le _ _
  | getOp k =>
    simp only [applyOp, LruCache.get]
    cases hf : c.lookupEntry k with
    | none => simpa using h
    | some e =>
      simp only []
      exact Nat.le_trans (sumWeights_promote_le hf) h
  | getMutOp k =>
    simp only [applyOp, LruCache.getMut, LruCache.get]
    cases hf : c.lookupEntry k with
    | none => simpa using h
    | some e =>
      simp only []
      exact Nat.le_trans (sumWeights_promote_le hf) h
  | peekOp k => simpa [applyOp] using h
  | removeOp k =>
    simp only [applyOp, LruCache.remove]
    exact Nat.le_trans (sumWeights_filter_le _ _) h
  | removeLruOp =>
    simp only [applyOp, LruCache.removeLru]
    cases hl : c.entries.getLast? with
    | none => simpa using h
    | some e =>
      simp only []
      exact Nat.le_trans (sumWeights_dropLast_le _) h
  | clearOp =>
    simp [applyOp, LruCache.clear, sumWeights]
  | setCapacityOp n =>
    simp only [applyOp, LruCache.setCapacity]
    exact evictAll_le _ _

theorem applyOps_weight_le {K V : Type} [DecidableEq K] (m : K → V → Nat)
    (ops : List (MOp K V)) :
    ∀ (c : LruCache K V), sumWeights c.entries ≤ c.capacity →
      sumWeights (applyOps m c ops).entries ≤ (applyOps m c ops).capacity := by
  induction ops with
  | nil => intro c h; simpa [applyOps] using h
  | cons op rest ih =>
    intro c h
    have hstep := applyOp_weight_le m c op h
    simpa [applyOps] using ih (applyOp m c op) hstep

/-- A weight policy that measures every entry as zero. -/
def zeroMeter (_ : Nat) (_ : Nat) : Nat := 0

/-- C4 — counterexample to the claim as stated.  A MemLRU with capacity 0
under a weight policy that measures the inserted entry as 0 is NOT empty
after `insert` returns: the eviction loop only runs while
total_weight > capacity, and 0 > 0 is false, so the zero-weight entry stays. -/
theorem c4_counterexample :
    ((LruCache.insert zeroMeter
        ({ entries := [], capacity := 0 } : LruCache Nat Nat) 1 7).2.capacity = 0) ∧
    ((LruCache.insert zeroMeter
        ({ entries := [], capacity := 0 } : LruCache Nat Nat) 1 7).2.len ≠ 0) := by
  constructor
  · rfl
  · decide

/-- C4 (amended) — after any sequence of MemLRU operations started from a
state whose total weight is within capacity, `size()` equals the sum of the
stored entries' weights and is at most the capacity.  (In particular, at
capacity 0 the total weight is 0; but an entry whose measured weight is 0 may
remain, so the container need not be empty — that is the amendment.) -/
theorem c4_amended {K V : Type} [DecidableEq K] (m : K → V → Nat)
    (c0 : LruCache K V) (ops : List (MOp K V))
    (h : sumWeights c0.entries ≤ c0.capacity) :
    (applyOps m c0 ops).size = sumWeights (applyOps m c0 ops).entries ∧
    (applyOps m c0 ops).size ≤ (applyOps m c0 ops).capacity := by
  refine ⟨rfl, ?_⟩
  exact applyOps_weight_le m ops c0 h

/-- Witness for C4 (amended): a concrete run of the operation sequence from
the weighted-cache test, at capacity 2. -/
theorem c4_amended_witness :
    (applyOps (fun _ v => v) ({ entries := [], capacity := 2 } : LruCache Nat Nat)
        [MOp.insertOp 1 1, MOp.insertOp 2 4, MOp.getOp 1]).size =
      sumWeights (applyOps (fun _ v => v)
        ({ entries := [], capacity := 2 } : LruCache Nat Nat)
        [MOp.insertOp 1 1, MOp.insertOp 2 4, MOp.getOp 1]).entries ∧
    (applyOps (fun _ v => v) ({ entries := [], capacity := 2 } : LruCache Nat Nat)
        [MOp.insertOp 1 1, MOp.insertOp 2 4, MOp.getOp 1]).size ≤
      (applyOps (fun _ v => v) ({ entries := [], capacity := 2 } : LruCache Nat Nat)
        [MOp.insertOp 1 1, MOp.insertOp 2 4, MOp.getOp 1]).capacity :=
  c4_amended (fun _ v => v) { entries := [], capacity := 2 }
    [MOp.insertOp 1 1, MOp.insertOp 2 4, MOp.getOp 1] (by decide)

/-- The weight policy of the tests' `VecLen` meter: the vector's length. -/
def vecLen (_ : String) (v : List Nat) : Nat := v.length

/-- C6 — inserting an entry whose measured weight exceeds the capacity is not
an error: `insert` returns normally and the eviction loop removes the new
entry itself.  Concretely, for MemLRU(2, VecLen), inserting ("foo1",[1,2])
then ("foo2",[3,4,5,6]) leaves size() = 0 with neither key present. -/
theorem c6_oversize_insert :
    (∀ (m : String → List Nat → Nat) (c : LruCache String (List Nat))
        (k : String) (v : List Nat), c.capacity < m k v →
        ((c.insert m k v).2.contains k) = false) ∧
    (((((({ entries := [], capacity := 2 } : LruCache String (List Nat)).insert
          vecLen "foo1" [1, 2]).2).insert vecLen "foo2" [3, 4, 5, 6]).2.size = 0) ∧
      (((({ entries := [], capacity := 2 } : LruCache String (List Nat)).insert
          vecLen "foo1" [1, 2]).2).insert vecLen "foo2" [3, 4, 5, 6]).2.contains "foo1"
        = false ∧
      (((({ entries := [], capacity := 2 } : LruCache String (List Nat)).insert
          vecLen "foo1" [1, 2]).2).insert vecLen "foo2" [3, 4, 5, 6]).2.contains "foo2"
        = false) := by
  constructor
  · intro m c k v hw
    simp only [LruCache.insert, evictAll]
    have hdrain := evictFuel_head_big hw
      (((k, v, m k v) :: eraseKey c.entries k).length) k v (eraseKey c.entries k)
      (by simp)
    simp only [LruCache.contains, LruCache.lookupEntry]
    rw [hdrain]
    rfl
  · refine ⟨?_, ?_, ?_⟩ <;> decide

/-- Witness for the universally quantified part of C6: a concrete oversized
insert into MemLRU(2, VecLen) leaves the key absent. -/
theorem c6_oversize_insert_witness :
    ((({ entries := [], capacity := 2 } : LruCache String (List Nat)).insert
        vecLen "x" [1, 2, 3]).2.contains "x") = false :=
  c6_oversize_insert.1 vecLen { entries := [], capacity := 2 } "x" [1, 2, 3] (by decide)

/-! The filesystem model for the disk cache (`disk_cache.rs`).

A filesystem state is a finite map from paths to (contents, mtime), a set of
directories, a clock, and oracles saying which syscalls succeed on which
paths.  Each primitive mirrors one `std::fs` call used by `disk_cache.rs`;
an `Option FS` result models an `io::Result`, `none` being the error case. -/

structure FS where
  files : List (Path × Bytes × Nat)
  dirs : List Path
  now : Nat
  createDirOk : Bool
  createOk : Path → Bool
  writeOk : Path → Bool
  removeOk : Path → Bool
  setTimesOk : Path → Bool
  openOk : Path → Bool
  renameOk : Path → Path → Bool
  copyOk : Path → Path → Bool

/-- Contents and mtime of the file at `p`, mirroring `fs::metadata`. -/
def FS.lookup (fs : FS) (p : Path) : Option (Bytes × Nat) :=
  (findKey fs.files p).map fun e => e.2

/-- Contents of the file at `p`. -/
def FS.read (fs : FS) (p : Path) : Option Bytes :=
  (fs.lookup p).map fun bt => bt.1

/-- Create or truncate-and-write the file at `p` (mtime set to the clock). -/
def FS.setFile (fs : FS) (p : Path) (b : Bytes) : FS :=
  { fs with files := (p, b, fs.now) :: eraseKey fs.files p }

/-- `fs::remove_file`: fails if the file is absent or the oracle denies it. -/
def FS.removeFile (fs : FS) (p : Path) : Option FS :=
  if (fs.lookup p).isSome && fs.removeOk p then
    some { fs with files := eraseKey fs.files p }
  else none

/-- `filetime::set_file_times(p, now, now)`: fails if the file is absent or
the oracle denies it; on success the mtime becomes the clock. -/
def FS.setFileTimes (fs : FS) (p : Path) : Option FS :=
  match fs.lookup p with
  | none => none
  | some bt =>
    if fs.setTimesOk p then
      some { fs with files := (p, bt.1, fs.now) :: eraseKey fs.files p }
    else none

/-- `File::open(p)` for reading: yields the contents on success. -/
def FS.openFile (fs : FS) (p : Path) : Option Bytes :=
  match fs.read p with
  | none => none
  | some b => if fs.openOk p then some b else none

/-- `fs::create_dir_all(d)` effect on success (idempotent). -/
def FS.createDirAll (fs : FS) (d : Path) : FS :=
  if d ∈ fs.dirs then fs else { fs with dirs := d :: fs.dirs }

/-- The error kinds of `disk_cache::Error`. -/
inductive DErr where
  | tooLarge : DErr
  | notInCache : DErr
  | io : DErr
deriving DecidableEq

/-- Outcome of a disk-cache operation: a value, an error, or a process abort
(the `panic!`/`expect` calls in the source). -/
inductive DOut (α : Type) where
  | ok : α → DOut α
  | err : DErr → DOut α
  | panicked : DOut α

/-- True iff the outcome is a returned value. -/
def DOut.isOk {α : Type} : DOut α → Bool
  | .ok _ => true
  | _ => false

/-- The state of an `LruDiskCache`: the embedded `LruCache` keyed by relative
paths and weighted by file size, the root directory, and the filesystem. -/
structure DiskState where
  lru : LruCache Path Nat
  root : Path
  fs : FS

/-- The `FileSize` meter: the weight of an entry is its `u64` value. -/
def fileSize (_ : Path) (v : Nat) : Nat := v

/-- `LruDiskCache::can_store`: `size <= capacity`. -/
def canStore (s : DiskState) (size : Nat) : Bool :=
  decide (size ≤ s.lru.capacity)

/-- The eviction loop inside `LruDiskCache::add_file`: while the stored total
plus the incoming size exceeds capacity, pop the LRU entry and unlink its
file; `expect`/`panic!` on an empty cache or a failed unlink.  Fuel-indexed
with fuel = number of entries, which bounds the iterations (each pops one
entry; with the list empty and the guard still true the source panics, which
is exactly the fuel-0 guard-true case). -/
def diskEvictFuel : Nat → Path → Nat → LruCache Path Nat → FS →
    DOut Unit × LruCache Path Nat × FS
  | 0, _, sz, lru, fs =>
    if lru.capacity < lru.size + sz then (.panicked, lru, fs) else (.ok (), lru, fs)
  | n + 1, root, sz, lru, fs =>
    if lru.capacity < lru.size + sz then
      match lru.removeLru with
      | (none, lru1) => (.panicked, lru1, fs)
      | (some kv, lru1) =>
        match fs.removeFile (root ++ kv.1) with
        | none => (.panicked, lru1, fs)
        | some fs1 => diskEvictFuel n root sz lru1 fs1
    else (.ok (), lru, fs)

/-- `LruDiskCache::add_file` for a relative path: reject oversize, evict and
unlink from the tail until the entry fits, then record it in the LRU map. -/
def addFile (s : DiskState) (key : Path) (size : Nat) : DOut Unit × DiskState :=
  if !canStore s size then (.err .tooLarge, s)
  else
    match diskEvictFuel s.lru.entries.length s.root size s.lru s.fs with
    | (.ok _, lru1, fs1) =>
      (.ok (), { s with lru := (LruCache.insert fileSize lru1 key size).2, fs := fs1 })
    | (.err e, lru1, fs1) => (.err e, { s with lru := lru1, fs := fs1 })
    | (.panicked, lru1, fs1) => (.panicked, { s with lru := lru1, fs := fs1 })

/-- The tail of `insert_by` after the writer has run and the size is known:
`add_file`, and on its (TooLarge) failure unlink the file just written,
panicking if that unlink fails (`expect("Failed to remove file ...")`). -/
def insertByRecord (s : DiskState) (key : Path) (sz : Nat) : DOut Unit × DiskState :=
  match addFile s key sz with
  | (.ok _, s1) => (.ok (), s1)
  | (.err e, s1) =>
    match s1.fs.removeFile (s1.root ++ key) with
    | some fs1 => (.err e, { s1 with fs := fs1 })
    | none => (.panicked, s1)
  | (.panicked, s1) => (.panicked, s1)

/-- The `size`-guard at the top of `insert_by`: with a known size, fail fast
when it cannot be stored. -/
def sizeGuardFails (s : DiskState) : Option Nat → Bool
  | some sz => !canStore s sz
  | none => false

/-- `LruDiskCache::insert_by`.  The writer callback is modelled as a function
from the target path and filesystem to the filesystem after its writes plus a
success flag; on failure the error surfaces with the writes persisted (the
source propagates the error with `?` at `by(&path)?` — no cleanup there). -/
def insertBy (s : DiskState) (key : Path) (size? : Option Nat)
    (writer : Path → FS → FS × Bool) : DOut Unit × DiskState :=
  if sizeGuardFails s size? then (.err .tooLarge, s)
  else
    let path := s.root ++ key
    if !s.fs.createDirOk then (.err .io, s)
    else
      let fs1 := s.fs.createDirAll path.dropLast
      let wr := writer path fs1
      if !wr.2 then (.err .io, { s with fs := wr.1 })
      else
        match size? with
        | some sz => insertByRecord { s with fs := wr.1 } key sz
        | none =>
          match wr.1.lookup path with
          | some bt => insertByRecord { s with fs := wr.1 } key bt.1.length
          | none => (.err .io, { s with fs := wr.1 })

/-- The writer of `insert_bytes`: `File::create` then `write_all`.  On a
create failure nothing changes; on a write failure the file exists truncated
(partial contents are not observed by any verified property). -/
def bytesWriter (bytes : Bytes) (p : Path) (fs : FS) : FS × Bool :=
  if fs.createOk p then
    if fs.writeOk p then (fs.setFile p bytes, true) else (fs.setFile p [], false)
  else (fs, false)

/-- The writer of `insert_with`: `File::create` then the caller's closure,
which writes `uw.1` to the file and reports success `uw.2`. -/
def withWriter (uw : Bytes × Bool) (p : Path) (fs : FS) : FS × Bool :=
  if fs.createOk p then (fs.setFile p uw.1, uw.2) else (fs, false)

/-- The writer of `insert_file`: `fs::rename`, falling back on failure to
`fs::copy` plus a best-effort (logged, non-fatal) unlink of the source. -/
def fileWriter (src : Path) (p : Path) (fs : FS) : FS × Bool :=
  match fs.lookup src with
  | none => (fs, false)
  | some bt =>
    if fs.renameOk src p then
      ({ fs with files := (p, bt) :: eraseKey (eraseKey fs.files src) p }, true)
    else if fs.copyOk src p then
      let fs1 := fs.setFile p bt.1
      match fs1.removeFile src with
      | some fs2 => (fs2, true)
      | none => (fs1, true)
    else (fs, false)

/-- `LruDiskCache::insert_bytes`. -/
def insertBytes (s : DiskState) (key : Path) (bytes : Bytes) : DOut Unit × DiskState :=
  insertBy s key (some bytes.length) (bytesWriter bytes)

/-- `LruDiskCache::insert_with`; the caller's closure is abstracted as the
pair (bytes it writes, whether it succeeds). -/
def insertWith (s : DiskState) (key : Path) (uw : Bytes × Bool) :
    DOut Unit × DiskState :=
  insertBy s key none (withWriter uw)

/-- `LruDiskCache::insert_file`: read the source size with `fs::metadata`,
then `insert_by` with the rename-or-copy writer. -/
def insertFile (s : DiskState) (key src : Path) : DOut Unit × DiskState :=
  match s.fs.lookup src with
  | none => (.err .io, s)
  | some bt => insertBy s key (some bt.1.length) (fileWriter src)

/-- `LruDiskCache::get_file`: promote in the LRU map, refresh the file times,
then open the file; a failure after the promotion surfaces as `Io` with the
promotion kept. -/
def getFile (s : DiskState) (k : Path) : DOut Bytes × DiskState :=
  let path := s.root ++ k
  match LruCache.get s.lru k with
  | (none, lru1) => (.err .notInCache, { s with lru := lru1 })
  | (some _, lru1) =>
    let s1 : DiskState := { s with lru := lru1 }
    match s1.fs.setFileTimes path with
    | none => (.err .io, s1)
    | some fs1 =>
      match fs1.openFile path with
      | none => (.err .io, { s1 with fs := fs1 })
      | some b => (.ok b, { s1 with fs := fs1 })

/-- `LruDiskCache::remove`: drop the LRU entry first; if one was present,
unlink its file, surfacing an unlink failure as `Io`. -/
def DiskState.remove (s : DiskState) (k : Path) : DOut Unit × DiskState :=
  match LruCache.remove s.lru k with
  | (none, lru1) => (.ok (), { s with lru := lru1 })
  | (some _, lru1) =>
    let s1 : DiskState := { s with lru := lru1 }
    match s1.fs.removeFile (s.root ++ k) with
    | some fs1 => (.ok (), { s1 with fs := fs1 })
    | none => (.err .io, s1)

/-- One result of the `WalkDir` traversal in `get_all_files`: an errored
entry, a non-file entry, a file whose metadata or mtime read fails, or a file
with its mtime, absolute path and size. -/
inductive WalkItem where
  | errItem : WalkItem
  | nonFile : Path → WalkItem
  | metaErr : Path → WalkItem
  | fileItem : Nat → Path → Nat → WalkItem

/-- The `filter_map` of `get_all_files`: keep only fully-readable files. -/
def walkFile? : WalkItem → Option (Nat × Path × Nat)
  | .fileItem m p sz => some (m, p, sz)
  | _ => none

/-- Stable insertion into an mtime-sorted list (Rust's stable `sort_by_key`:
an element goes after strictly smaller keys and before equal-or-larger ones
coming from later positions). -/
def insertByMtime (x : Nat × Path × Nat) : List (Nat × Path × Nat) → List (Nat × Path × Nat)
  | [] => [x]
  | y :: ys => if y.1 < x.1 then y :: insertByMtime x ys else x :: y :: ys

/-- `get_all_files`: keep the readable files of the traversal and sort them
by ascending mtime, oldest first, discarding the mtimes. -/
def get_all_files (walk : List WalkItem) : List (Path × Nat) :=
  ((walk.filterMap walkFile?).foldr insertByMtime []).map fun x => (x.2.1, x.2.2)

/-- The replay loop of `LruDiskCache::init`: unlink oversize files (swallow
the unlink error), `add_file` the rest (swallow its error, propagate its
panics; `strip_prefix(...).expect("Bad path?")` panics on a path outside the
root). -/
def initGo (root : Path) : List (Path × Nat) → DiskState → DOut DiskState
  | [], s => .ok s
  | (file, size) :: rest, s =>
    if !canStore s size then
      match s.fs.removeFile file with
      | some fs1 => initGo root rest { s with fs := fs1 }
      | none => initGo root rest s
    else
      if root.isPrefixOf file then
        match addFile s (file.drop root.length) size with
        | (.panicked, _) => .panicked
        | (.ok _, s1) => initGo root rest s1
        | (.err _, s1) => initGo root rest s1
      else .panicked

/-- `LruDiskCache::new` / `init`: create the root directory (failing with
`Io` if that fails), then replay the traversal result. -/
def newCache (root : Path) (cap : Nat) (fs : FS) (walk : List WalkItem) :
    DOut DiskState :=
  if !fs.createDirOk then .err .io
  else initGo root (get_all_files walk)
    { lru := { entries := [], capacity := cap }, root := root, fs := fs.createDirAll root }

/-- A filesystem with no files and every syscall succeeding. -/
def fsAllOk : FS :=
  { files := [], dirs := [], now := 0, createDirOk := true,
    createOk := fun _ => true, writeOk := fun _ => true, removeOk := fun _ => true,
    setTimesOk := fun _ => true, openOk := fun _ => true,
    renameOk := fun _ _ => true, copyOk := fun _ _ => true }

/-- An empty disk cache at capacity 10 rooted at `r`, all syscalls succeed. -/
def emptyDisk : DiskState :=
  { lru := { entries := [], capacity := 10 }, root := ["r"], fs := fsAllOk }

/-- The cache after inserting six bytes under key `k` into `emptyDisk`. -/
def reinsertStep1 : DiskState :=
  (insertBytes emptyDisk ["k"] [0, 0, 0, 0, 0, 0]).2

/-- The cache after re-inserting key `k` with six fresh bytes: old size 6 plus
new size 6 exceeds capacity 10. -/
def reinsertStep2 : DiskState :=
  (insertBytes reinsertStep1 ["k"] [1, 1, 1, 1, 1, 1]).2

/-- C1 — evaluation of the code at the failing input.  Re-inserting the
already-present key `k` (old size 6, new size 6, capacity 10) succeeds, yet
afterwards `k` is present in the embedded LRU map while the file at `root/k`
no longer exists: the eviction loop inside `add_file` still counts the old
entry for `k`, evicts `k` itself and unlinks the file that the writer had
just written, after which the new entry is recorded over a missing file. -/
theorem c1_invariant_broken :
    ((insertBytes reinsertStep1 ["k"] [1, 1, 1, 1, 1, 1]).1 = DOut.ok ()) ∧
    (reinsertStep2.lru.contains ["k"] = true) ∧
    (reinsertStep2.fs.read (["r"] ++ ["k"]) = none) := by
  refine ⟨rfl, rfl, rfl⟩

/-- C2 — counterexample to the claim as stated.  A writer that writes `[1,2]`
and then fails makes `insert_with` surface the error, but the partially
written file is NOT unlinked: `by(&path)?` propagates the writer's error
before the cleanup `map_err` (which only guards `add_file`), so the partial
file remains on disk after the failed call. -/
theorem c2_counterexample :
    ((insertWith emptyDisk ["k"] ([1, 2], false)).1 = DOut.err DErr.io) ∧
    ((insertWith emptyDisk ["k"] ([1, 2], false)).2.fs.read (["r"] ++ ["k"])
      = some [1, 2]) := by
  refine ⟨rfl, rfl⟩

/-- C3 — counterexample to the claim as stated.  A traversal that yields a
failing directory entry does not prevent `new` from returning a cache: the
`filter_map(|e| e.ok() ...)` in `get_all_files` silently skips every errored
entry, so `init` still returns `Ok`. -/
theorem c3_counterexample :
    (newCache ["r"] 10 fsAllOk [WalkItem.errItem]).isOk = true := by
  rfl

/-! Small preservation lemmas about the filesystem primitives. -/

theorem createDirAll_files (fs : FS) (d : Path) :
    (fs.createDirAll d).files = fs.files := by
  rw [FS.createDirAll]
  split <;> rfl

theorem createDirAll_createDirOk (fs : FS) (d : Path) :
    (fs.createDirAll d).createDirOk = fs.createDirOk := by
  rw [FS.createDirAll]
  split <;> rfl

theorem createDirAll_createOk (fs : FS) (d : Path) :
    (fs.createDirAll d).createOk = fs.createOk := by
  rw [FS.createDirAll]
  split <;> rfl

theorem createDirAll_writeOk (fs : FS) (d : Path) :
    (fs.createDirAll d).writeOk = fs.writeOk := by
  rw [FS.createDirAll]
  split <;> rfl

theorem createDirAll_removeOk (fs : FS) (d : Path) :
    (fs.createDirAll d).removeOk = fs.removeOk := by
  rw [FS.createDirAll]
  split <;> rfl

theorem createDirAll_setTimesOk (fs : FS) (d : Path) :
    (fs.createDirAll d).setTimesOk = fs.setTimesOk := by
  rw [FS.createDirAll]
  split <;> rfl

theorem createDirAll_openOk (fs : FS) (d : Path) :
    (fs.createDirAll d).openOk = fs.openOk := by
  rw [FS.createDirAll]
  split <;> rfl

theorem createDirAll_now (fs : FS) (d : Path) :
    (fs.createDirAll d).now = fs.now := by
  rw [FS.createDirAll]
  split <;> rfl

theorem createDirAll_lookup (fs : FS) (d p : Path) :
    (fs.createDirAll d).lookup p = fs.lookup p := by
  rw [FS.lookup, FS.lookup, createDirAll_files]

theorem read_setFile_self (fs : FS) (p : Path) (b : Bytes) :
    (fs.setFile p b).read p = some b := by
  simp [FS.read, FS.lookup, FS.setFile, findKey]

theorem setFile_createOk (fs : FS) (p : Path) (b : Bytes) :
    (fs.setFile p b).createOk = fs.createOk := rfl

theorem setFile_writeOk (fs : FS) (p : Path) (b : Bytes) :
    (fs.setFile p b).writeOk = fs.writeOk := rfl

theorem setFile_setTimesOk (fs : FS) (p : Path) (b : Bytes) :
    (fs.setFile p b).setTimesOk = fs.setTimesOk := rfl

theorem setFile_openOk (fs : FS) (p : Path) (b : Bytes) :
    (fs.setFile p b).openOk = fs.openOk := rfl

theorem openOk_files_update (fs : FS) (l : List (Path × Bytes × Nat)) :
    ({ fs with files := l } : FS).openOk = fs.openOk := rfl

theorem read_files_cons_self (fs : FS) (p : Path) (b : Bytes) (t : Nat)
    (rest : List (Path × Bytes × Nat)) :
    FS.read { fs with files := (p, b, t) :: rest } p = some b := by
  simp [FS.read, FS.lookup, findKey]

/-- Opening the file right after a successful `set_file_times` on it yields
its contents, provided the open is permitted. -/
theorem openFile_times_update (fs : FS) (p : Path) (b : Bytes)
    (hop : fs.openOk p = true) :
    FS.openFile { fs with files := (p, b, fs.now) :: eraseKey fs.files p } p
      = some b := by
  rw [FS.openFile, read_files_cons_self]
  simp only [openOk_files_update, hop, if_true]

theorem lookup_setFile_self (fs : FS) (p : Path) (b : Bytes) :
    (fs.setFile p b).lookup p = some (b, fs.now) := by
  simp [FS.lookup, FS.setFile, findKey]

/-- The eviction loop in `add_file` either completes or panics; it never
produces an error result. -/
theorem diskEvictFuel_cases (n : Nat) (root : Path) (sz : Nat) :
    ∀ (lru : LruCache Path Nat) (fs : FS),
      (diskEvictFuel n root sz lru fs).1 = DOut.ok () ∨
      (diskEvictFuel n root sz lru fs).1 = DOut.panicked := by
  induction n with
  | zero =>
    intro lru fs
    rw [diskEvictFuel]
    split
    · right; rfl
    · left; rfl
  | succ m ih =>
    intro lru fs
    rw [diskEvictFuel]
    split
    · split
      · right; rfl
      · split
        · right; rfl
        · exact ih _ _
    · left; rfl

/-- C10 — `insert_file` of a source whose size exceeds the capacity returns
`TooLarge` with the entire state unchanged: the guard at the top of
`insert_by` fires before `create_dir_all`, before the rename-or-copy writer,
and before any eviction, so the source file and the cache are untouched. -/
theorem c10_insert_file_too_large (s : DiskState) (key src : Path)
    (b : Bytes) (t : Nat)
    (hsrc : s.fs.lookup src = some (b, t))
    (hbig : s.lru.capacity < b.length) :
    insertFile s key src = (DOut.err DErr.tooLarge, s) := by
  simp only [insertFile, hsrc]
  have hguard : sizeGuardFails s (some b.length) = true := by
    simp [sizeGuardFails, canStore]
    omega
  rw [insertBy, if_pos hguard]

/-- Witness for C10: a cache of capacity 10 with a 12-byte source file. -/
theorem c10_insert_file_too_large_witness :
    insertFile
      { emptyDisk with fs :=
          { fsAllOk with files := [(["src"], [9, 9, 9, 9, 9, 9, 9, 9, 9, 9, 9, 9], 0)] } }
      ["k"] ["src"]
    = (DOut.err DErr.tooLarge,
      { emptyDisk with fs :=
          { fsAllOk with files := [(["src"], [9, 9, 9, 9, 9, 9, 9, 9, 9, 9, 9, 9], 0)] } }) :=
  c10_insert_file_too_large _ ["k"] ["src"] [9, 9, 9, 9, 9, 9, 9, 9, 9, 9, 9, 9] 0
    rfl (by decide)

/-- C2 (amended) — when the writer of `insert_with` fails after the file was
created, the error surfaces as `Io`, but the partially written file is NOT
unlinked: it remains on disk with whatever the writer wrote, and the
in-memory index is unchanged.  (The unlink-on-failure cleanup in `insert_by`
guards only the `add_file` recording step, not the writer.) -/
theorem c2_amended (s : DiskState) (k : Path) (written : Bytes)
    (hdir : s.fs.createDirOk = true)
    (hcreate : s.fs.createOk (s.root ++ k) = true) :
    ((insertWith s k (written, false)).1 = DOut.err DErr.io) ∧
    ((insertWith s k (written, false)).2.fs.read (s.root ++ k) = some written) ∧
    ((insertWith s k (written, false)).2.lru = s.lru) := by
  rw [insertWith, insertBy]
  have hguard : sizeGuardFails s none = false := rfl
  rw [hguard]
  simp only [Bool.false_eq_true, if_false]
  rw [hdir]
  simp only [Bool.not_true, Bool.false_eq_true, if_false]
  rw [withWriter]
  rw [createDirAll_createOk, hcreate]
  simp only [if_true, Bool.not_false, if_true]
  refine ⟨?_, ?_, ?_⟩ <;>
    first
      | trivial
      | exact read_setFile_self _ _ _

/-- Witness for C2 (amended): a concrete failed writer that wrote 3 bytes. -/
theorem c2_amended_witness :
    ((insertWith emptyDisk ["w"] ([7, 7, 7], false)).1 = DOut.err DErr.io) ∧
    ((insertWith emptyDisk ["w"] ([7, 7, 7], false)).2.fs.read (["r"] ++ ["w"])
      = some [7, 7, 7]) ∧
    ((insertWith emptyDisk ["w"] ([7, 7, 7], false)).2.lru = emptyDisk.lru) :=
  c2_amended emptyDisk ["w"] [7, 7, 7] rfl rfl

/-- The replay loop of `init` never produces an error result: unlink failures
on oversize files and `add_file` errors are logged and swallowed; only panics
propagate. -/
theorem initGo_ne_err (root : Path) :
    ∀ (l : List (Path × Nat)) (s : DiskState) (e : DErr),
      initGo root l s ≠ DOut.err e := by
  intro l
  induction l with
  | nil =>
    intro s e
    simp [initGo]
  | cons fe rest ih =>
    intro s e
    obtain ⟨file, size⟩ := fe
    rw [initGo]
    split
    · split
      · exact ih _ _
      · exact ih _ _
    · split
      · split
        · simp
        · exact ih _ _
        · exact ih _ _
      · simp

/-- C3 (amended) — opening a cache (`new`/`init`) fails with the `Io` error
kind exactly when creating the root directory fails.  Errors in the
directory traversal do not make `open` fail: errored entries are silently
skipped by `get_all_files`, and unlink or `add_file` errors during the replay
are logged and swallowed, so in all those cases a cache is still returned. -/
theorem c3_amended (root : Path) (cap : Nat) (fs : FS) (walk : List WalkItem) :
    (fs.createDirOk = false → newCache root cap fs walk = DOut.err DErr.io) ∧
    (∀ e : DErr, newCache root cap fs walk = DOut.err e →
      fs.createDirOk = false) := by
  constructor
  · intro h
    rw [newCache, h]
    rfl
  · intro e h
    cases hdir : fs.createDirOk with
    | false => rfl
    | true =>
      rw [newCache, hdir] at h
      simp only [Bool.not_true, Bool.false_eq_true, if_false] at h
      exact absurd h (initGo_ne_err root _ _ e)

/-- Witness for C3 (amended): with root-directory creation denied, `new`
returns the `Io` error. -/
theorem c3_amended_witness :
    newCache ["r"] 10 { fsAllOk with createDirOk := false } [] = DOut.err DErr.io :=
  (c3_amended ["r"] 10 { fsAllOk with createDirOk := false } []).1 rfl

/-- When the size fits the capacity, the recording step never reports
`TooLarge`: its own `can_store` check passes (the capacity is unchanged), and
the eviction loop either completes or panics. -/
theorem insertByRecord_fits_ne_tooLarge (s : DiskState) (k : Path) (sz : Nat)
    (hfit : sz ≤ s.lru.capacity) :
    (insertByRecord s k sz).1 ≠ DOut.err DErr.tooLarge := by
  have hcan : canStore s sz = true := by simp [canStore, hfit]
  rw [insertByRecord, addFile, hcan]
  simp only [Bool.not_true, Bool.false_eq_true, if_false]
  rcases hev : diskEvictFuel s.lru.entries.length s.root sz s.lru s.fs
    with ⟨out, lru1, fs1⟩
  have hout := diskEvictFuel_cases s.lru.entries.length s.root sz s.lru s.fs
  rw [hev] at hout
  simp only [] at hout
  rcases hout with h | h <;> subst h <;> simp

/-- With a fitting byte string, `insert_bytes` never reports `TooLarge` on
any path (directory creation, create, write, recording). -/
theorem insertBytes_fits_ne_tooLarge (s : DiskState) (k : Path) (bytes : Bytes)
    (hfit : bytes.length ≤ s.lru.capacity) :
    (insertBytes s k bytes).1 ≠ DOut.err DErr.tooLarge := by
  have hguard : sizeGuardFails s (some bytes.length) = false := by
    simp [sizeGuardFails, canStore, hfit]
  rw [insertBytes, insertBy, hguard]
  simp only [Bool.false_eq_true, if_false]
  cases hdir : s.fs.createDirOk with
  | false => simp
  | true =>
    simp only [Bool.not_true, Bool.false_eq_true, if_false]
    rw [bytesWriter]
    cases hcr : (s.fs.createDirAll (s.root ++ k).dropLast).createOk (s.root ++ k) with
    | false => simp
    | true =>
      simp only [if_true]
      cases hwr : (s.fs.createDirAll (s.root ++ k).dropLast).writeOk (s.root ++ k) with
      | false => simp
      | true =>
        simp only [if_true, Bool.not_true, Bool.false_eq_true, if_false]
        exact insertByRecord_fits_ne_tooLarge _ k bytes.length hfit

/-- C5 — `insert_bytes(k, bytes)` returns `TooLarge` if and only if
`bytes.len() > capacity`, and in that case the whole state — the in-memory
index, the files and the directories — is returned unchanged: the guard at
the top of `insert_by` fires before any filesystem call or eviction. -/
theorem c5_insert_bytes_too_large (s : DiskState) (k : Path) (bytes : Bytes) :
    (((insertBytes s k bytes).1 = DOut.err DErr.tooLarge) ↔
      s.lru.capacity < bytes.length) ∧
    (s.lru.capacity < bytes.length →
      insertBytes s k bytes = (DOut.err DErr.tooLarge, s)) := by
  have hbig : s.lru.capacity < bytes.length →
      insertBytes s k bytes = (DOut.err DErr.tooLarge, s) := by
    intro h
    have hguard : sizeGuardFails s (some bytes.length) = true := by
      simp [sizeGuardFails, canStore]
      omega
    rw [insertBytes, insertBy, if_pos hguard]
  refine ⟨⟨?_, ?_⟩, hbig⟩
  · intro h
    by_contra hnot
    have hfit : bytes.length ≤ s.lru.capacity := by omega
    exact insertBytes_fits_ne_tooLarge s k bytes hfit h
  · intro h
    rw [hbig h]

/-- Witness for C5: eleven bytes against capacity 10 give `TooLarge` and an
unchanged state. -/
theorem c5_insert_bytes_too_large_witness :
    insertBytes emptyDisk ["k"] [1, 1, 1, 1, 1, 1, 1, 1, 1, 1, 1]
      = (DOut.err DErr.tooLarge, emptyDisk) :=
  (c5_insert_bytes_too_large emptyDisk ["k"] [1, 1, 1, 1, 1, 1, 1, 1, 1, 1, 1]).2
    (by decide)

/-- C8 — `remove(k)`: on an absent key it is a no-op success; on a present
key whose unlink succeeds it returns success with the file unlinked and the
entry dropped; and when the unlink of a present key fails the call returns
the `Io` error kind but `k` is nevertheless no longer in the in-memory index
(the LRU entry is removed before the unlink is attempted). -/
theorem c8_remove_semantics :
    (∀ (s : DiskState) (k : Path), s.lru.contains k = false →
        DiskState.remove s k = (DOut.ok (), s)) ∧
    (∀ (s : DiskState) (k : Path), s.lru.contains k = true →
        (s.fs.lookup (s.root ++ k)).isSome = true →
        s.fs.removeOk (s.root ++ k) = true →
        (DiskState.remove s k).1 = DOut.ok () ∧
        (DiskState.remove s k).2.fs.read (s.root ++ k) = none ∧
        (DiskState.remove s k).2.lru.contains k = false) ∧
    (∀ (s : DiskState) (k : Path), s.lru.contains k = true →
        ((s.fs.lookup (s.root ++ k)).isSome = false ∨
          s.fs.removeOk (s.root ++ k) = false) →
        (DiskState.remove s k).1 = DOut.err DErr.io ∧
        (DiskState.remove s k).2.lru.contains k = false) := by
  refine ⟨?_, ?_, ?_⟩
  · intro s k hc
    rw [LruCache.contains] at hc
    have hnone : s.lru.lookupEntry k = none := by
      cases ho : s.lru.lookupEntry k with
      | none => rfl
      | some e => rw [ho] at hc; simp at hc
    have he : eraseKey s.lru.entries k = s.lru.entries :=
      eraseKey_of_findKey_none hnone
    simp only [DiskState.remove, LruCache.remove, hnone, Option.map_none']
    rw [he]
  · intro s k hc hfile hrm
    rw [LruCache.contains] at hc
    obtain ⟨e, he⟩ := Option.isSome_iff_exists.mp hc
    have hcond : ((s.fs.lookup (s.root ++ k)).isSome && s.fs.removeOk (s.root ++ k))
        = true := by rw [hfile, hrm]; rfl
    simp only [DiskState.remove, LruCache.remove, he, Option.map_some']
    rw [FS.removeFile]
    simp only [hcond, if_true]
    refine ⟨?_, ?_, ?_⟩
    · first
        | rfl
        | trivial
    · simp [FS.read, FS.lookup, findKey_eraseKey]
    · simp [LruCache.contains, LruCache.lookupEntry, findKey_eraseKey]
  · intro s k hc hfail
    rw [LruCache.contains] at hc
    obtain ⟨e, he⟩ := Option.isSome_iff_exists.mp hc
    have hcond : ((s.fs.lookup (s.root ++ k)).isSome && s.fs.removeOk (s.root ++ k))
        = false := by
      rcases hfail with h | h <;> rw [h] <;> simp
    simp only [DiskState.remove, LruCache.remove, he, Option.map_some']
    rw [FS.removeFile]
    simp only [hcond, Bool.false_eq_true, if_false]
    refine ⟨?_, ?_⟩
    · first
        | rfl
        | trivial
    · simp [LruCache.contains, LruCache.lookupEntry, findKey_eraseKey]

/-- A one-entry cache whose file is present and removable. -/
def presentDisk : DiskState :=
  { lru := { entries := [(["k"], 2, 2)], capacity := 10 }
    root := ["r"]
    fs := { fsAllOk with files := [(["r", "k"], [5, 5], 0)] } }

/-- The same one-entry cache but with `remove_file` denied on every path. -/
def presentDiskNoUnlink : DiskState :=
  { lru := { entries := [(["k"], 2, 2)], capacity := 10 }
    root := ["r"]
    fs := { fsAllOk with
      files := [(["r", "k"], [5, 5], 0)]
      removeOk := fun _ => false } }

/-- Witness for C8: its three conjuncts at concrete states — an absent key,
a present key with a removable file, and a present key whose unlink is
denied. -/
theorem c8_remove_semantics_witness :
    (DiskState.remove emptyDisk ["k"] = (DOut.ok (), emptyDisk)) ∧
    ((DiskState.remove presentDisk ["k"]).1 = DOut.ok ()) ∧
    ((DiskState.remove presentDiskNoUnlink ["k"]).1 = DOut.err DErr.io) :=
  ⟨c8_remove_semantics.1 emptyDisk ["k"] rfl,
   (c8_remove_semantics.2.1 presentDisk ["k"] rfl rfl rfl).1,
   (c8_remove_semantics.2.2 presentDiskNoUnlink ["k"] rfl (Or.inr rfl)).1⟩

/-- C9 — when `get`/`get_file` on a present key fails with `Io` (the
file-times update or the open failed), the key is still present afterwards,
it has already been promoted to the head of the recency order (the `lru.get`
promotion happens before the filesystem calls), and `len()` and `size()` are
unchanged.  The pairwise-distinct-keys hypothesis is the well-formedness of
every reachable LRU state. -/
theorem c9_get_io_keeps_entry (s : DiskState) (k : Path)
    (hnodup : (s.lru.entries.map fun e => e.1).Nodup)
    (hmem : s.lru.contains k = true)
    (hio : (getFile s k).1 = DOut.err DErr.io) :
    ((getFile s k).2.lru.contains k = true) ∧
    ((getFile s k).2.lru.entries.head?.map (fun e => e.1) = some k) ∧
    ((getFile s k).2.lru.len = s.lru.len) ∧
    ((getFile s k).2.lru.size = s.lru.size) := by
  rw [LruCache.contains] at hmem
  obtain ⟨e, he⟩ := Option.isSome_iff_exists.mp hmem
  have hek : e.1 = k := findKey_key he
  have hperm : List.Perm (e :: eraseKey s.lru.entries k) s.lru.entries :=
    promote_perm hnodup he
  have hlru : (getFile s k).2.lru
      = { s.lru with entries := e :: eraseKey s.lru.entries k } := by
    simp only [getFile, LruCache.get, he]
    split
    · rfl
    · split
      · rfl
      · rfl
  rw [hlru]
  refine ⟨?_, ?_, ?_, ?_⟩
  · simp [LruCache.contains, LruCache.lookupEntry, findKey, hek]
  · simp [hek]
  · exact hperm.length_eq
  · show sumWeights (e :: eraseKey s.lru.entries k) = sumWeights s.lru.entries
    rw [sumWeights, sumWeights]
    exact (hperm.map fun x => x.2.2).sum_eq

/-- A one-entry cache whose file exists but whose `set_file_times` fails. -/
def timesFailDisk : DiskState :=
  { lru := { entries := [(["k"], 2, 2)], capacity := 10 }
    root := ["r"]
    fs := { fsAllOk with
      files := [(["r", "k"], [5, 5], 0)]
      setTimesOk := fun _ => false } }

/-- Witness for C9: a present key whose file-times refresh is denied — `get`
returns `Io`, yet the entry survives at the head with `len` and `size`
unchanged. -/
theorem c9_get_io_keeps_entry_witness :
    ((getFile timesFailDisk ["k"]).2.lru.contains ["k"] = true) ∧
    ((getFile timesFailDisk ["k"]).2.lru.entries.head?.map (fun e => e.1)
      = some ["k"]) ∧
    ((getFile timesFailDisk ["k"]).2.lru.len = timesFailDisk.lru.len) ∧
    ((getFile timesFailDisk ["k"]).2.lru.size = timesFailDisk.lru.size) :=
  c9_get_io_keeps_entry timesFailDisk ["k"] (by decide) rfl rfl

/-- `add_file` of a fitting entry into a cache whose LRU map is empty: the
eviction loop exits immediately and the entry is recorded. -/
theorem addFile_empty (s : DiskState) (key : Path) (sz : Nat)
    (hempty : s.lru.entries = [])
    (hfit : sz ≤ s.lru.capacity) :
    addFile s key sz = (DOut.ok (),
      { s with lru := { entries := [(key, sz, sz)], capacity := s.lru.capacity } }) := by
  have hcan : canStore s sz = true := by simp [canStore, hfit]
  have hsz : s.lru.size = 0 := by
    rw [LruCache.size, hempty]
    rfl
  rw [addFile, hcan]
  simp only [Bool.not_true, Bool.false_eq_true, if_false]
  rw [hempty]
  simp only [List.length_nil]
  rw [diskEvictFuel]
  have hng : ¬ s.lru.capacity < s.lru.size + sz := by omega
  rw [if_neg hng]
  simp only []
  have hins : (LruCache.insert fileSize s.lru key sz).2
      = { entries := [(key, sz, sz)], capacity := s.lru.capacity } := by
    rw [LruCache.insert]
    simp only [hempty, fileSize]
    have her : eraseKey ([] : List (Path × Nat × Nat)) key = [] := rfl
    rw [her]
    have hev : evictAll s.lru.capacity [(key, sz, sz)] = [(key, sz, sz)] := by
      rw [evictAll]
      simp only [List.length_cons, List.length_nil]
      rw [evictFuel]
      have : ¬ s.lru.capacity < sumWeights [(key, sz, sz)] := by
        simp [sumWeights]
        omega
      rw [if_neg this]
    rw [hev]
  rw [hins]

/-- C7 — round trip: inserting a fitting byte string into an empty disk cache
with all the involved filesystem calls succeeding returns success, and an
immediately following `get` succeeds and reads back exactly those bytes. -/
theorem c7_round_trip (s : DiskState) (k : Path) (bytes : Bytes)
    (hempty : s.lru.entries = [])
    (hcap : bytes.length ≤ s.lru.capacity)
    (hdir : s.fs.createDirOk = true)
    (hcreate : s.fs.createOk (s.root ++ k) = true)
    (hwrite : s.fs.writeOk (s.root ++ k) = true)
    (htimes : s.fs.setTimesOk (s.root ++ k) = true)
    (hopen : s.fs.openOk (s.root ++ k) = true) :
    ((insertBytes s k bytes).1 = DOut.ok ()) ∧
    ((getFile (insertBytes s k bytes).2 k).1 = DOut.ok bytes) := by
  have hguard : sizeGuardFails s (some bytes.length) = false := by
    simp [sizeGuardFails, canStore, hcap]
  have hins : insertBytes s k bytes = (DOut.ok (),
      { s with
          lru := { entries := [(k, bytes.length, bytes.length)],
                   capacity := s.lru.capacity }
          fs := (s.fs.createDirAll (s.root ++ k).dropLast).setFile
                  (s.root ++ k) bytes }) := by
    rw [insertBytes, insertBy, hguard]
    simp only [Bool.false_eq_true, if_false]
    rw [hdir]
    simp only [Bool.not_true, Bool.false_eq_true, if_false]
    rw [bytesWriter, createDirAll_createOk, hcreate]
    simp only [if_true]
    rw [createDirAll_writeOk, hwrite]
    simp only [if_true, Bool.not_true, Bool.false_eq_true, if_false]
    rw [insertByRecord]
    rw [addFile_empty
      { lru := s.lru, root := s.root,
        fs := (s.fs.createDirAll (List.dropLast (s.root ++ k))).setFile
          (s.root ++ k) bytes }
      k bytes.length hempty hcap]
  refine ⟨by rw [hins], ?_⟩
  rw [hins]
  rw [getFile]
  have hfind : findKey [(k, bytes.length, bytes.length)] k
      = some (k, bytes.length, bytes.length) := by
    simp [findKey]
  rw [LruCache.get]
  simp only [LruCache.lookupEntry, hfind]
  have htlook : ((s.fs.createDirAll (s.root ++ k).dropLast).setFile (s.root ++ k)
      bytes).lookup (s.root ++ k)
      = some (bytes, (s.fs.createDirAll (s.root ++ k).dropLast).now) :=
    lookup_setFile_self _ _ _
  rw [FS.setFileTimes]
  simp only [htlook]
  have hst : ((s.fs.createDirAll (s.root ++ k).dropLast).setFile (s.root ++ k)
      bytes).setTimesOk (s.root ++ k) = true := by
    rw [setFile_setTimesOk, createDirAll_setTimesOk]
    exact htimes
  have hof : FS.openFile
      { (s.fs.createDirAll (s.root ++ k).dropLast).setFile (s.root ++ k) bytes with
        files := (s.root ++ k, bytes,
            ((s.fs.createDirAll (s.root ++ k).dropLast).setFile (s.root ++ k)
              bytes).now)
          :: eraseKey ((s.fs.createDirAll (s.root ++ k).dropLast).setFile
              (s.root ++ k) bytes).files (s.root ++ k) } (s.root ++ k)
      = some bytes :=
    openFile_times_update _ _ _ (by
      rw [setFile_openOk, createDirAll_openOk]
      exact hopen)
  simp [hst, hof]

/-- Witness for C7: four bytes under key `k` into the empty capacity-10
cache; `get` returns exactly those bytes. -/
theorem c7_round_trip_witness :
    ((insertBytes emptyDisk ["k"] [1, 2, 3, 4]).1 = DOut.ok ()) ∧
    ((getFile (insertBytes emptyDisk ["k"] [1, 2, 3, 4]).2 ["k"]).1
      = DOut.ok [1, 2, 3, 4]) :=
  c7_round_trip emptyDisk ["k"] [1, 2, 3, 4] rfl (by decide) rfl rfl rfl rfl rfl

end DatabendCache
